import Mathlib

/-!
Verification of the field-analysis and line-integral core of the
`optimizador_trayectorias` repository (files `campos.py`, `integrales.py`,
`app.py`).

The symbolic layer (sympy) is modelled by an abstract `SymEngine`: each sympy
call the code makes (`sp.diff`, `sp.integrate`, `sp.simplify`, `len(str(_))`,
`lambdify` + numeric call) is one field of the structure.  Calls that can raise
a Python exception (`sp.integrate`, evaluation of a compiled function) return
`Option`; `none` models a raise.  A concrete executable instance on bivariate
rational polynomials (`polyEngine`) witnesses the general theorems.

The numeric layer (numpy) is modelled over `ℚ`: `np.linspace` and `np.trapz`
are embedded as exact rational computations, and vectorized array operations
are embedded pointwise.
-/

namespace OptTray

/-- Result of evaluating a compiled (lambdified) expression at a point, as a
Python/numpy value: a finite float, `nan`, `±inf`, or a value that is not
convertible to `float` (e.g. a tuple or a complex number). -/
inductive Val where
  | fin (q : ℚ)
  | nan
  | posInf
  | negInf
  | nonConv
  deriving DecidableEq, Repr

/-- Model of Python `float(v)`: succeeds on every numeric value — including
`nan` and `±inf`, which convert without error — and raises (`none`) only on a
non-convertible value. -/
def float_of : Val → Option Val
  | .nonConv => none
  | v => some v

/-- Abstract interface to the sympy operations used by `campos.py`.
`diffX`/`diffY` model `sp.diff(_, x)` / `sp.diff(_, y)`; `sub`/`add` build the
expressions `a - b` / `a + b`; `simplify` models `sp.simplify`; `isZero`
models the structural comparison `expr == 0` on an already-simplified
expression; `integX`/`integY` model `sp.integrate(_, x)` / `sp.integrate(_, y)`
with `none` for a raised exception; `strLen` models `len(str(_))`; `evalAt e a b`
models lambdifying `e` and calling the compiled function at `(a, b)`, with
`none` for a raised exception. -/
structure SymEngine where
  Expr : Type
  diffX : Expr → Expr
  diffY : Expr → Expr
  sub : Expr → Expr → Expr
  add : Expr → Expr → Expr
  simplify : Expr → Expr
  isZero : Expr → Bool
  integX : Expr → Option Expr
  integY : Expr → Option Expr
  strLen : Expr → ℕ
  evalAt : Expr → ℚ → ℚ → Option Val

/-- The dictionary value built by `crear_campo` (campos.py lines 64-70) and
stored in `FIELDS`: symbolic pair `"sym"`, vectorized numeric evaluator
`"np"` (modelled pointwise, each component evaluated by the engine),
conservativeness flag `"conservativo"`, simplified curl `"curl"`, and the
compiled potential `"potencial"` (modelled by the expression it was compiled
from; `none` is Python `None`). -/
structure FieldRecord (σ : Type) where
  sym : σ × σ
  np : ℚ → ℚ → Option Val × Option Val
  conservativo : Bool
  curl : σ
  potencial : Option σ

/-- campos.py `curl_2d`: for `PQ_sym = (P, Q)` the 2D curl `∂Q/∂x - ∂P/∂y`. -/
def curl_2d (E : SymEngine) (PQ_sym : E.Expr × E.Expr) : E.Expr :=
  E.sub (E.diffX PQ_sym.2) (E.diffY PQ_sym.1)

/-- campos.py `F_np` (lines 22-26): the vectorized field evaluator, embedded
pointwise: at `(a, b)` it returns the pair of evaluations of the compiled
`P` and `Q`. -/
def F_np (E : SymEngine) (P_expr Q_expr : E.Expr) : ℚ → ℚ → Option Val × Option Val :=
  fun a b => (E.evalAt P_expr a b, E.evalAt Q_expr a b)

/-- campos.py lines 29-36: the origin validation of `crear_campo`.  It tries
to evaluate the compiled `P` and `Q` at `(0, 0)` and then to convert both
results with `float`; the check passes iff no step raises.  No finiteness
test is performed: `float(nan)` and `float(inf)` succeed. -/
def originCheck (E : SymEngine) (P_expr Q_expr : E.Expr) : Bool :=
  match E.evalAt P_expr 0 0, E.evalAt Q_expr 0 0 with
  | some pv, some qv => (float_of pv).isSome && (float_of qv).isSome
  | _, _ => false

/-- campos.py lines 41-59: the body of the `try` block that recovers a scalar
potential for a field classified conservative.  Line by line:
`f_int_x = sp.integrate(P_expr, x)`; `df_dy = sp.diff(f_int_x, y)`;
`resto = sp.simplify(Q_expr - df_dy)`; `C_y = sp.integrate(resto, y)`;
`f_pot = f_int_x + C_y`; `if len(str(f_pot)) > 200: f_pot = sp.simplify(f_pot)`;
then the compiled potential is validated at the origin (`float(vpot)`).
Any raise (`none` from a step) yields `none`, the model of the `except`
branch setting `potencial_fn = None`. -/
def recoverPotential (E : SymEngine) (P_expr Q_expr : E.Expr) : Option E.Expr :=
  match E.integX P_expr with
  | none => none
  | some f_int_x =>
    let df_dy := E.diffY f_int_x
    let resto := E.simplify (E.sub Q_expr df_dy)
    match E.integY resto with
    | none => none
    | some C_y =>
      let f_pot0 := E.add f_int_x C_y
      let f_pot := if 200 < E.strLen f_pot0 then E.simplify f_pot0 else f_pot0
      match E.evalAt f_pot 0 0 with
      | none => none
      | some vpot =>
        match float_of vpot with
        | none => none
        | some _ => some f_pot

/-- campos.py `crear_campo` (lines 8-70): computes the simplified curl and the
conservativeness flag `curl == 0`, validates `P`/`Q` at the origin (raising
`ValueError`, modelled by `Except.error`, when that fails), attempts potential
recovery only for conservative fields, and returns the `(nombre, record)`
pair. -/
def crear_campo (E : SymEngine) (nombre : String) (P_expr Q_expr : E.Expr) :
    Except String (String × FieldRecord E.Expr) :=
  let curl := E.simplify (curl_2d E (P_expr, Q_expr))
  let es_conservativo := E.isZero curl
  if originCheck E P_expr Q_expr then
    Except.ok (nombre,
      { sym := (P_expr, Q_expr)
        np := F_np E P_expr Q_expr
        conservativo := es_conservativo
        curl := curl
        potencial := if es_conservativo then recoverPotential E P_expr Q_expr else none })
  else
    Except.error "Las funciones P o Q no se pueden evaluar numericamente en (0,0)"

/-- Modelled from the spec (section 4.2, steps 1-5, and the sentence quoted by
claim C1): the potential pipeline *as the spec words it* — integrate `P` with
respect to `x` giving `F1`; residual `= simplify(Q - ∂F1/∂y)`; `C(y) =` the
integral of the residual with respect to `y`; potential `= F1 + C(y)`; an
extra simplification pass exactly when the printed length exceeds 200
characters.  Written independently of `recoverPotential` to be compared with
it (the spec pipeline has no origin-validation step). -/
def potencial_segun_spec (E : SymEngine) (P_expr Q_expr : E.Expr) : Option E.Expr :=
  match E.integX P_expr with
  | none => none
  | some F1 =>
    let residual := E.simplify (E.sub Q_expr (E.diffY F1))
    match E.integY residual with
    | none => none
    | some C_y =>
      let potential := E.add F1 C_y
      some (if 200 < E.strLen potential then E.simplify potential else potential)

/-! ### Concrete engine instance: bivariate rational polynomials

`Poly1` is a polynomial in `y` as its coefficient list (index = exponent);
`Poly2` is a polynomial in `x` and `y` as a list of `Poly1` coefficients
(outer index = exponent of `x`).  This executable instance realizes the sympy
operations on the polynomial expression domain, which covers the two built-in
fields of campos.py and the inputs used as witnesses. -/

/-- Coefficient list of a polynomial in one variable (index = exponent). -/
abbrev Poly1 : Type := List ℚ

/-- Polynomial in `x` and `y`: list of `y`-polynomials indexed by the power
of `x`. -/
abbrev Poly2 : Type := List Poly1

/-- Addition of coefficient lists. -/
def addP1 : Poly1 → Poly1 → Poly1
  | [], q => q
  | p, [] => p
  | a :: p, b :: q => (a + b) :: addP1 p q

/-- Negation of a coefficient list. -/
def negP1 (p : Poly1) : Poly1 := p.map Neg.neg

/-- Scalar multiple of a coefficient list. -/
def smulP1 (c : ℚ) (p : Poly1) : Poly1 := p.map (fun a => c * a)

/-- Derivative of a polynomial in its variable. -/
def diffP1 (p : Poly1) : Poly1 := p.tail.mapIdx (fun i a => ((i + 1 : ℕ) : ℚ) * a)

/-- Antiderivative (with zero constant) of a polynomial in its variable. -/
def integP1 (p : Poly1) : Poly1 := 0 :: p.mapIdx (fun i a => a / ((i + 1 : ℕ) : ℚ))

/-- Evaluation of a coefficient list at a point (Horner). -/
def evalP1 (p : Poly1) (v : ℚ) : ℚ := p.foldr (fun a acc => a + v * acc) 0

/-- Canonical form: drop trailing zero coefficients. -/
def trimP1 (p : Poly1) : Poly1 := (p.reverse.dropWhile (fun a => a == 0)).reverse

/-- Addition of `Poly2`. -/
def addP2 : Poly2 → Poly2 → Poly2
  | [], q => q
  | p, [] => p
  | a :: p, b :: q => addP1 a b :: addP2 p q

/-- Negation of `Poly2`. -/
def negP2 (p : Poly2) : Poly2 := p.map negP1

/-- Subtraction of `Poly2`. -/
def subP2 (p q : Poly2) : Poly2 := addP2 p (negP2 q)

/-- `∂/∂x` on `Poly2`. -/
def diffXP2 (p : Poly2) : Poly2 := p.tail.mapIdx (fun i c => smulP1 ((i + 1 : ℕ) : ℚ) c)

/-- `∂/∂y` on `Poly2`. -/
def diffYP2 (p : Poly2) : Poly2 := p.map diffP1

/-- `∫ dx` on `Poly2` (zero constant of integration, as sympy produces). -/
def integXP2 (p : Poly2) : Poly2 := [] :: p.mapIdx (fun i c => smulP1 (1 / ((i + 1 : ℕ) : ℚ)) c)

/-- `∫ dy` on `Poly2` (zero constant of integration, as sympy produces). -/
def integYP2 (p : Poly2) : Poly2 := p.map integP1

/-- Evaluation of a `Poly2` at `(a, b)`. -/
def evalP2 (p : Poly2) (a b : ℚ) : ℚ := p.foldr (fun c acc => evalP1 c b + a * acc) 0

/-- Canonical form of a `Poly2`: trim every coefficient, then drop trailing
zero coefficients.  Models `sp.simplify` on the polynomial domain, where
simplification produces the canonical expanded form. -/
def trimP2 (p : Poly2) : Poly2 := ((p.map trimP1).reverse.dropWhile (fun c => c.isEmpty)).reverse

/-- Structural zero test on a simplified polynomial (sympy `expr == 0`). -/
def isZeroP2 (p : Poly2) : Bool := (trimP2 p).isEmpty

/-- Stand-in for `len(str(expr))` on the polynomial domain.  The exact sympy
printer is external; only the comparison against the 200-character threshold
matters to the embedded code, and any fixed measure is a valid instance. -/
def strLenP2 (p : Poly2) : ℕ := (p.map List.length).foldr (· + ·) 0

/-- The concrete engine on bivariate rational polynomials.  Polynomial
integration and evaluation are total, so `integX`/`integY`/`evalAt` always
return `some`, matching sympy on this domain. -/
def polyEngine : SymEngine where
  Expr := Poly2
  diffX := diffXP2
  diffY := diffYP2
  sub := subP2
  add := addP2
  simplify := trimP2
  isZero := isZeroP2
  integX := fun p => some (integXP2 p)
  integY := fun p => some (integYP2 p)
  strLen := strLenP2
  evalAt := fun p a b => some (Val.fin (evalP2 p a b))

/-- campos.py line 88: the scalar potential `f1 = x^2 + y^2`. -/
def f1 : Poly2 := [[0, 0, 1], [], [1]]

/-- campos.py lines 89-92: `F1_sym = (sp.diff(f1, x), sp.diff(f1, y))`,
the gradient `(2x, 2y)`. -/
def F1_sym : Poly2 × Poly2 := (diffXP2 f1, diffYP2 f1)

/-- campos.py line 107: `F2_sym = (-y, x)`. -/
def F2_sym : Poly2 × Poly2 := ([[0, -1]], [[], [1]])

/-- campos.py line 144: `CURL_F1 = sp.simplify(curl_2d(F1_sym))`. -/
def CURL_F1 : Poly2 := polyEngine.simplify (curl_2d polyEngine F1_sym)

/-- campos.py line 145: `CURL_F2 = sp.simplify(curl_2d(F2_sym))`. -/
def CURL_F2 : Poly2 := polyEngine.simplify (curl_2d polyEngine F2_sym)

/-- campos.py lines 149-155: the built-in conservative record.  The
hand-written numpy evaluator `campo_conservativo` (`(2x, 2y)`) is embedded
pointwise; `potencial_f1` (`X^2 + Y^2`) is recorded by the expression `f1`
it evaluates. -/
def fieldF1 : FieldRecord Poly2 :=
  { sym := F1_sym
    np := fun a b => (some (Val.fin (2 * a)), some (Val.fin (2 * b)))
    conservativo := true
    curl := CURL_F1
    potencial := some f1 }

/-- campos.py lines 156-162: the built-in non-conservative record, with the
hand-written numpy evaluator `campo_rotacional` (`(-y, x)`) embedded
pointwise and no potential. -/
def fieldF2 : FieldRecord Poly2 :=
  { sym := F2_sym
    np := fun a b => (some (Val.fin (-b)), some (Val.fin a))
    conservativo := false
    curl := CURL_F2
    potencial := none }

/-- campos.py lines 148-163: the two built-in entries of `FIELDS`. -/
def FIELDS : List (String × FieldRecord Poly2) :=
  [("Conservativo: F1(x,y) = (2x, 2y)", fieldF1),
   ("No conservativo: F2(x,y) = (-y, x)", fieldF2)]

/-! ### Numeric layer: integrales.py over exact rationals

Float arithmetic is embedded as exact `ℚ` arithmetic; numpy's vectorized
array operations are embedded pointwise over the list of samples. -/

/-- Model of `np.linspace(t0, t1, n)`: `n` evenly spaced samples from `t0` to
`t1` inclusive; `[t0]` for `n = 1`, `[]` for `n = 0`. -/
def linspace (t0 t1 : ℚ) (n : ℕ) : List ℚ :=
  if n = 1 then [t0]
  else (List.range n).map (fun i => t0 + (t1 - t0) * i / ((n : ℚ) - 1))

/-- Model of `np.trapz(ys, xs)`: trapezoidal quadrature of the samples `ys`
over the grid `xs`; `0` when fewer than two samples are given (numpy returns
`0.0` without error in that case). -/
def trapz : List ℚ → List ℚ → ℚ
  | y0 :: y1 :: ys, x0 :: x1 :: xs => (x1 - x0) * (y0 + y1) / 2 + trapz (y1 :: ys) (x1 :: xs)
  | _, _ => 0

/-- Pointwise dot product in the plane (`np.sum(F * T, axis=1)` for one
sample). -/
def dot2 (u v : ℚ × ℚ) : ℚ := u.1 * v.1 + u.2 * v.2

/-- integrales.py `calcular_trabajo` (lines 4-35): sample `t` with
`np.linspace(t0, t1, n)`, evaluate positions, tangents and field values,
form the pointwise dot product, and integrate with `np.trapz`.  The code
performs no validation of `n`. -/
def calcular_trabajo (Fnp : ℚ × ℚ → ℚ × ℚ) (r dr_dt : ℚ → ℚ × ℚ)
    (t0 t1 : ℚ) (n : ℕ) : ℚ :=
  let t := linspace t0 t1 n
  let integrando := t.map (fun ti => dot2 (Fnp (r ti)) (dr_dt ti))
  trapz integrando t

/-- integrales.py `trayectoria_recta`: `r(t) = (Ax + (Bx-Ax)t, Ay + (By-Ay)t)`. -/
def trayectoria_recta (A B : ℚ × ℚ) : ℚ → ℚ × ℚ :=
  fun t => (A.1 + (B.1 - A.1) * t, A.2 + (B.2 - A.2) * t)

/-- integrales.py `velocidad_recta`: the constant `(Bx-Ax, By-Ay)`. -/
def velocidad_recta (A B : ℚ × ℚ) : ℚ → ℚ × ℚ :=
  fun _ => (B.1 - A.1, B.2 - A.2)

/-- integrales.py `trayectoria_parabolica`: linear in `x`, parabolic in `y`. -/
def trayectoria_parabolica (A B : ℚ × ℚ) : ℚ → ℚ × ℚ :=
  fun t => (A.1 + (B.1 - A.1) * t, A.2 + (B.2 - A.2) * t ^ 2)

/-- integrales.py `velocidad_parabolica`: `(Bx-Ax, (By-Ay)·2t)`. -/
def velocidad_parabolica (A B : ℚ × ℚ) : ℚ → ℚ × ℚ :=
  fun t => (B.1 - A.1, (B.2 - A.2) * 2 * t)

/-- integrales.py `trayectoria_parametrica`: `x(t)` linear,
`y(t) = Ay + (By-Ay)·((1-a)t + a·t^2)`. -/
def trayectoria_parametrica (A B : ℚ × ℚ) (a : ℚ) : ℚ → ℚ × ℚ :=
  fun t => (A.1 + (B.1 - A.1) * t, A.2 + (B.2 - A.2) * ((1 - a) * t + a * t ^ 2))

/-- integrales.py `velocidad_parametrica`: `(Bx-Ax, (By-Ay)·((1-a) + 2at))`. -/
def velocidad_parametrica (A B : ℚ × ℚ) (a : ℚ) : ℚ → ℚ × ℚ :=
  fun t => (B.1 - A.1, (B.2 - A.2) * ((1 - a) + 2 * a * t))

/-- campos.py `campo_conservativo`: the numeric field `(2x, 2y)`, pointwise. -/
def campo_conservativo (xy : ℚ × ℚ) : ℚ × ℚ := (2 * xy.1, 2 * xy.2)

/-- campos.py `campo_rotacional`: the numeric field `(-y, x)`, pointwise. -/
def campo_rotacional (xy : ℚ × ℚ) : ℚ × ℚ := (-xy.2, xy.1)

/-! ### app.py: parameter sweep, minimum search, field registration -/

/-- app.py lines 149-156: for each sweep value build the quadratic-family
path and its velocity and collect the work values (interval `[0, 1]`,
resolution `n`). -/
def sweepW (Fnp : ℚ × ℚ → ℚ × ℚ) (A B : ℚ × ℚ) (n : ℕ) (a_vals : List ℚ) : List ℚ :=
  a_vals.map (fun av =>
    calcular_trabajo Fnp (trayectoria_parametrica A B av) (velocidad_parametrica A B av) 0 1 n)

/-- Model of `np.argmin` on a list: the index of the first occurrence of the
minimum (numpy documents that ties return the first occurrence); `0` on the
empty array. -/
def argmin : List ℚ → ℕ
  | [] => 0
  | [_] => 0
  | w :: v :: ws =>
    if (v :: ws).getD (argmin (v :: ws)) 0 < w then argmin (v :: ws) + 1 else 0

/-- app.py lines 157-159: `idx_min = np.argmin(W_vals)`,
`a_opt = a_vals[idx_min]`, `W_opt = W_vals[idx_min]`. -/
def buscar_minimo (a_vals W_vals : List ℚ) : ℚ × ℚ :=
  (a_vals.getD (argmin W_vals) 0, W_vals.getD (argmin W_vals) 0)

/-- app.py line 41: the display name generated for a user field,
`f"{nombre_nuevo}: ({expr_P}, {expr_Q})"`. -/
def genName (nombre_nuevo expr_P expr_Q : String) : String :=
  nombre_nuevo ++ ": (" ++ expr_P ++ ", " ++ expr_Q ++ ")"

/-- Python dict assignment `d[k] = v`: replace the value at an existing key
in place, else append the binding. -/
def dictSet {R : Type} (reg : List (String × R)) (k : String) (v : R) : List (String × R) :=
  if reg.any (fun p => p.1 == k) then reg.map (fun p => if p.1 == k then (k, v) else p)
  else reg ++ [(k, v)]

/-- Python dict lookup `d[k]` (as an `Option`): value at the key, if bound. -/
def dictGet {R : Type} (reg : List (String × R)) (k : String) : Option R :=
  (reg.find? (fun p => p.1 == k)).map Prod.snd

/-- app.py lines 36-48: the registration handler.  It generates the display
name, calls `crear_campo` on the parsed expressions, and on success performs
`FIELDS[nombre_creado] = campo_creado`; on error the registry is left
untouched (`st.sidebar.error`). -/
def registrar (E : SymEngine) (reg : List (String × FieldRecord E.Expr))
    (nombre_nuevo expr_P expr_Q : String) (P_expr Q_expr : E.Expr) :
    List (String × FieldRecord E.Expr) :=
  match crear_campo E (genName nombre_nuevo expr_P expr_Q) P_expr Q_expr with
  | .ok (nombre_creado, campo_creado) => dictSet reg nombre_creado campo_creado
  | .error _ => reg

/-! ### A second concrete engine: expressions with the infinity atom

This small expression language realizes the sympy domain needed for the
field `P = x + oo` (sympy's positive-infinity atom).  Its compiled form is
evaluated at the origin on Python floats, where `0.0 + inf` is `inf` — the
float operations `+`, `-`, `*` never raise — and `float(inf)` succeeds, so
the field passes the origin validation of campos.py with a non-finite value.
The language is closed under differentiation (no division or transcendental
functions appear in it or in any derivative of it), so every operation of
the engine is exact; no branch stands in for behavior it does not model. -/

/-- Expressions over `x`, `y` with rational constants, `+`, `-`, `*`, and
the sympy atom `oo`. -/
inductive LExpr where
  | cst (c : ℚ)
  | vx
  | vy
  | addE (a b : LExpr)
  | subE (a b : LExpr)
  | mulE (a b : LExpr)
  | infE
  deriving DecidableEq, Repr

/-- Sympy's automatic evaluation of `a + b`: numeric atoms fold and zero
summands vanish at construction time (`Add(1, 0)` is `1`, `Add(0, e)` is
`e`), exactly as sympy's `+` behaves on these atoms. -/
def mkAdd : LExpr → LExpr → LExpr
  | .cst p, .cst q => .cst (p + q)
  | .cst p, e => if p = 0 then e else .addE (.cst p) e
  | e, .cst q => if q = 0 then e else .addE e (.cst q)
  | a, b => .addE a b

/-- Sympy's automatic evaluation of `a - b`: numeric atoms fold and a zero
subtrahend vanishes (`1 - 0` is `1`), as sympy's `-` behaves on these
atoms. -/
def mkSub : LExpr → LExpr → LExpr
  | .cst p, .cst q => .cst (p - q)
  | e, .cst q => if q = 0 then e else .subE e (.cst q)
  | a, b => .subE a b

/-- Sympy's automatic evaluation of `a * b`: numeric atoms fold, a zero
factor annihilates and a unit factor vanishes, as sympy's `*` behaves on
these atoms. -/
def mkMul : LExpr → LExpr → LExpr
  | .cst p, .cst q => .cst (p * q)
  | .cst p, e => if p = 0 then .cst 0 else if p = 1 then e else .mulE (.cst p) e
  | e, .cst q => if q = 0 then .cst 0 else if q = 1 then e else .mulE e (.cst q)
  | a, b => .mulE a b

/-- IEEE negation of a value. -/
def vneg : Val → Val
  | .fin q => .fin (-q)
  | .posInf => .negInf
  | .negInf => .posInf
  | .nan => .nan
  | .nonConv => .nonConv

/-- IEEE addition of two float values: finite sums are exact, an infinity
absorbs finite summands, opposite infinities give `nan`, and `nan`
propagates.  (A `nonConv` operand cannot arise from evaluating an `LExpr`;
it is sent to `nan` by the catch-all.) -/
def vadd : Val → Val → Val
  | .fin p, .fin q => .fin (p + q)
  | .fin _, .posInf => .posInf
  | .posInf, .fin _ => .posInf
  | .posInf, .posInf => .posInf
  | .fin _, .negInf => .negInf
  | .negInf, .fin _ => .negInf
  | .negInf, .negInf => .negInf
  | .posInf, .negInf => .nan
  | .negInf, .posInf => .nan
  | _, _ => .nan

/-- IEEE subtraction: `a - b = a + (-b)`. -/
def vsub (a b : Val) : Val := vadd a (vneg b)

/-- IEEE multiplication of two float values: finite products are exact, a
zero times an infinity is `nan`, nonzero finite factors scale an infinity
with the sign rule, infinities multiply by the sign rule, and `nan`
propagates. -/
def vmul : Val → Val → Val
  | .fin p, .fin q => .fin (p * q)
  | .fin p, .posInf => if p = 0 then .nan else (if 0 < p then .posInf else .negInf)
  | .posInf, .fin p => if p = 0 then .nan else (if 0 < p then .posInf else .negInf)
  | .fin p, .negInf => if p = 0 then .nan else (if 0 < p then .negInf else .posInf)
  | .negInf, .fin p => if p = 0 then .nan else (if 0 < p then .negInf else .posInf)
  | .posInf, .posInf => .posInf
  | .posInf, .negInf => .negInf
  | .negInf, .posInf => .negInf
  | .negInf, .negInf => .posInf
  | _, _ => .nan

/-- Evaluation of a compiled `LExpr` at `(a, b)` on Python floats.  Sympy's
`oo` is rendered by `lambdify` as the floating infinity; `+`, `-` and `*`
on floats follow IEEE semantics and never raise, so evaluation is total and
the engine's `evalAt` always returns `some`. -/
def evalL : LExpr → ℚ → ℚ → Val
  | .cst c, _, _ => .fin c
  | .vx, a, _ => .fin a
  | .vy, _, b => .fin b
  | .addE e1 e2, a, b => vadd (evalL e1 a b) (evalL e2 a b)
  | .subE e1 e2, a, b => vsub (evalL e1 a b) (evalL e2 a b)
  | .mulE e1 e2, a, b => vmul (evalL e1 a b) (evalL e2 a b)
  | .infE, _, _ => .posInf

/-- Symbolic `∂/∂x` on `LExpr` (sympy rules: constants and the `oo` atom
have zero derivative; sums, differences and products differentiate
termwise/by the product rule, with sympy's automatic evaluation applied to
the resulting expression). -/
def diffXL : LExpr → LExpr
  | .cst _ => .cst 0
  | .vx => .cst 1
  | .vy => .cst 0
  | .addE a b => mkAdd (diffXL a) (diffXL b)
  | .subE a b => mkSub (diffXL a) (diffXL b)
  | .mulE a b => mkAdd (mkMul (diffXL a) b) (mkMul a (diffXL b))
  | .infE => .cst 0

/-- Symbolic `∂/∂y` on `LExpr` (same rules as `diffXL`). -/
def diffYL : LExpr → LExpr
  | .cst _ => .cst 0
  | .vx => .cst 0
  | .vy => .cst 1
  | .addE a b => mkAdd (diffYL a) (diffYL b)
  | .subE a b => mkSub (diffYL a) (diffYL b)
  | .mulE a b => mkAdd (mkMul (diffYL a) b) (mkMul a (diffYL b))
  | .infE => .cst 0

/-- Structural zero test on `LExpr` (sympy `expr == 0`). -/
def isZeroL : LExpr → Bool
  | .cst c => c == 0
  | _ => false

/-- Engine on `LExpr`.  `sub`/`add` carry sympy's automatic evaluation
(the curl `1 - 0` collapses to the atom `1`, as `sp.diff(Q,x) - sp.diff(P,y)`
does in sympy); `simplify` is the identity, which agrees with sympy on the
numeric atoms every theorem feeds it (`sp.simplify(1)` is `1`);
`integX`/`integY` and `strLen` belong to the recovery branch, which
`crear_campo` skips for the non-conservative input this engine is used
with, so no theorem invokes them. -/
def infEngine : SymEngine where
  Expr := LExpr
  diffX := diffXL
  diffY := diffYL
  sub := mkSub
  add := mkAdd
  simplify := id
  isZero := isZeroL
  integX := fun _ => none
  integY := fun _ => none
  strLen := fun _ => 0
  evalAt := fun e a b => some (evalL e a b)

/-- The user field `P(x,y) = x + oo`: its compiled form yields `inf` at the
origin (`0.0 + inf`), without raising. -/
def pInf : LExpr := .addE .vx .infE

/-- The user field `Q(x,y) = x`. -/
def qInf : LExpr := .vx

/-- The record `crear_campo` builds for `(x + oo, x)`: the curl
`∂x/∂x - ∂(x + oo)/∂y = 1 - 0 = 1` is not structurally zero, so the field
is classified non-conservative and no potential is attempted. -/
def recInf : FieldRecord LExpr :=
  { sym := (pInf, qInf)
    np := F_np infEngine pInf qInf
    conservativo := false
    curl := .cst 1
    potencial := none }

/-! ### Concrete records used as witnesses -/

/-- The record `crear_campo` builds on `polyEngine` for the gradient field
`(2x, 2y)`: conservative, zero curl, recovered potential `x^2 + y^2`. -/
def recF1 : FieldRecord Poly2 :=
  { sym := (F1_sym.1, F1_sym.2)
    np := F_np polyEngine F1_sym.1 F1_sym.2
    conservativo := true
    curl := []
    potencial := some f1 }

/-- `polyEngine` with an integrator in `x` that always raises: models a
conservative field whose `P` sympy cannot integrate in closed form. -/
def failEngine : SymEngine :=
  { polyEngine with integX := fun _ => none }

/-- The record `crear_campo` builds on `failEngine` for `(2x, 2y)`:
conservative, but recovery fails at the first integration step, so the
potential is absent while every other field is populated as usual. -/
def recFail : FieldRecord Poly2 :=
  { sym := (F1_sym.1, F1_sym.2)
    np := F_np failEngine F1_sym.1 F1_sym.2
    conservativo := true
    curl := []
    potencial := none }

/-- The symbolic expression `x` on the polynomial engine. -/
def pX : Poly2 := [[], [1]]

/-- The symbolic expression `y` on the polynomial engine. -/
def pY : Poly2 := [[0, 1]]

/-- A registry state holding one entry under the generated name
`Campo personalizado: (x, y)`. -/
def regOld : List (String × FieldRecord Poly2) :=
  [(genName "Campo personalizado" "x" "y", fieldF1)]

/-- The record `crear_campo` builds on `polyEngine` for the field `(x, y)`:
conservative with potential `x^2/2 + y^2/2`. -/
def recXY : FieldRecord Poly2 :=
  { sym := (pX, pY)
    np := F_np polyEngine pX pY
    conservativo := true
    curl := []
    potencial := some [[0, 0, 1/2], [], [1/2]] }

/-! ### Helper lemmas -/

/-- When the recovery chain of `crear_campo` produces a potential expression,
that expression is the one the spec's five-step pipeline produces: the
origin validation at the end of the chain only filters, it never changes the
expression. -/
lemma recover_some_imp_spec (E : SymEngine) (P_expr Q_expr e : E.Expr)
    (h : recoverPotential E P_expr Q_expr = some e) :
    potencial_segun_spec E P_expr Q_expr = some e := by
  cases hx : E.integX P_expr with
  | none => simp [recoverPotential, hx] at h
  | some f_int_x =>
    cases hy : E.integY (E.simplify (E.sub Q_expr (E.diffY f_int_x))) with
    | none => simp [recoverPotential, hx, hy] at h
    | some C_y =>
      cases hv : E.evalAt
          (if 200 < E.strLen (E.add f_int_x C_y) then E.simplify (E.add f_int_x C_y)
           else E.add f_int_x C_y) 0 0 with
      | none => simp [recoverPotential, hx, hy, hv] at h
      | some vpot =>
        cases hf : float_of vpot with
        | none => simp [recoverPotential, hx, hy, hv, hf] at h
        | some w =>
          simp only [recoverPotential, hx, hy, hv, hf, Option.some.injEq] at h
          simp only [potencial_segun_spec, hx, hy, Option.some.injEq]
          exact h

/-! ### Claims -/

/-- C1: for every symbolic engine and field `(P, Q)`, whenever `crear_campo`
returns a record carrying a potential expression, that expression is exactly
the one computed by the spec's sequence — `F1 =` the integral of `P` in `x`;
residual `= simplify(Q - ∂F1/∂y)`; `C(y) =` the integral of the residual in
`y`; potential `= F1 + C(y)`; an extra simplification pass applied exactly
when the printed length exceeds 200 characters (`potencial_segun_spec`). -/
theorem claim1_potencial_pipeline (E : SymEngine) (nombre : String)
    (P_expr Q_expr : E.Expr) (rec : FieldRecord E.Expr) (e : E.Expr)
    (hok : crear_campo E nombre P_expr Q_expr = Except.ok (nombre, rec))
    (hpot : rec.potencial = some e) :
    potencial_segun_spec E P_expr Q_expr = some e := by
  cases hc : originCheck E P_expr Q_expr with
  | false => simp [crear_campo, hc] at hok
  | true =>
    simp only [crear_campo, hc, if_true, Except.ok.injEq, Prod.mk.injEq, true_and] at hok
    subst hok
    have hpot2 : (if E.isZero (E.simplify (curl_2d E (P_expr, Q_expr))) then
        recoverPotential E P_expr Q_expr else none) = some e := hpot
    cases hz : E.isZero (E.simplify (curl_2d E (P_expr, Q_expr))) with
    | false => rw [hz] at hpot2; simp at hpot2
    | true =>
      rw [hz] at hpot2
      simp only [if_true] at hpot2
      exact recover_some_imp_spec E P_expr Q_expr e hpot2

/-- Witness for C1 at a concrete input: on the polynomial engine with the
gradient field `(2x, 2y)`, the stored potential is `x^2 + y^2` and the spec
pipeline computes the same expression. -/
theorem claim1_witness : potencial_segun_spec polyEngine F1_sym.1 F1_sym.2 = some f1 :=
  claim1_potencial_pipeline polyEngine "F1" F1_sym.1 F1_sym.2 recF1 f1
    (by with_unfolding_all rfl) (by with_unfolding_all rfl)

/-- C2: every record produced by `crear_campo` and each of the two built-in
records in `FIELDS` satisfies the invariant: the `conservativo` flag is true
iff the stored (simplified) curl is structurally the zero expression, and the
potential entry is non-absent only when the flag is true. -/
theorem claim2_invariante_conservativo :
    (∀ (E : SymEngine) (nombre nombre2 : String) (P_expr Q_expr : E.Expr)
        (rec : FieldRecord E.Expr),
        crear_campo E nombre P_expr Q_expr = Except.ok (nombre2, rec) →
        ((rec.conservativo = true ↔ E.isZero rec.curl = true) ∧
          (rec.potencial ≠ none → rec.conservativo = true))) ∧
    (∀ r ∈ FIELDS.map Prod.snd,
        (r.conservativo = true ↔ isZeroP2 r.curl = true) ∧
        (r.potencial ≠ none → r.conservativo = true)) := by
  constructor
  · intro E nombre nombre2 P_expr Q_expr rec hok
    cases hc : originCheck E P_expr Q_expr with
    | false => simp [crear_campo, hc] at hok
    | true =>
      simp only [crear_campo, hc, if_true, Except.ok.injEq, Prod.mk.injEq] at hok
      obtain ⟨-, hok⟩ := hok
      subst hok
      constructor
      · exact Iff.rfl
      · intro hp
        have hp2 : (if E.isZero (E.simplify (curl_2d E (P_expr, Q_expr))) then
            recoverPotential E P_expr Q_expr else none) ≠ none := hp
        cases hz : E.isZero (E.simplify (curl_2d E (P_expr, Q_expr))) with
        | false => rw [hz] at hp2; simp at hp2
        | true => rfl
  · intro r hr
    simp only [FIELDS, List.map_cons, List.map_nil, List.mem_cons,
      List.not_mem_nil, or_false] at hr
    rcases hr with rfl | rfl
    · exact ⟨by simp [fieldF1]; with_unfolding_all rfl, fun _ => rfl⟩
    · refine ⟨?_, fun h => absurd rfl h⟩
      simp only [fieldF2]
      constructor
      · intro h; exact absurd h (by simp)
      · intro h
        have : isZeroP2 CURL_F2 = false := by with_unfolding_all rfl
        rw [this] at h
        exact absurd h (by simp)

/-- Witness for C2 at concrete inputs: the record built on the polynomial
engine for `(2x, 2y)` and the first built-in record both satisfy the
invariant. -/
theorem claim2_witness :
    ((recF1.conservativo = true ↔ polyEngine.isZero recF1.curl = true) ∧
      (recF1.potencial ≠ none → recF1.conservativo = true)) ∧
    ((fieldF1.conservativo = true ↔ isZeroP2 fieldF1.curl = true) ∧
      (fieldF1.potencial ≠ none → fieldF1.conservativo = true)) :=
  ⟨claim2_invariante_conservativo.1 polyEngine "F1" "F1" F1_sym.1 F1_sym.2 recF1
      (by with_unfolding_all rfl),
   claim2_invariante_conservativo.2 fieldF1 (by simp [FIELDS])⟩

/-- C4: whenever the origin validation passes, `crear_campo` returns a record
(never an error, whatever the recovery steps do), and if the recovery chain
fails the record has the potential marked absent while the symbolic form,
the numeric evaluator, the conservativeness flag and the curl are populated
as usual. -/
theorem claim4_recuperacion_degrada (E : SymEngine) (nombre : String)
    (P_expr Q_expr : E.Expr) (h : originCheck E P_expr Q_expr = true) :
    ∃ rec : FieldRecord E.Expr,
      crear_campo E nombre P_expr Q_expr = Except.ok (nombre, rec) ∧
      rec.sym = (P_expr, Q_expr) ∧
      rec.np = F_np E P_expr Q_expr ∧
      rec.curl = E.simplify (curl_2d E (P_expr, Q_expr)) ∧
      rec.conservativo = E.isZero (E.simplify (curl_2d E (P_expr, Q_expr))) ∧
      (recoverPotential E P_expr Q_expr = none → rec.potencial = none) := by
  refine ⟨{ sym := (P_expr, Q_expr)
            np := F_np E P_expr Q_expr
            conservativo := E.isZero (E.simplify (curl_2d E (P_expr, Q_expr)))
            curl := E.simplify (curl_2d E (P_expr, Q_expr))
            potencial := if E.isZero (E.simplify (curl_2d E (P_expr, Q_expr))) then
              recoverPotential E P_expr Q_expr else none }, ?_, rfl, rfl, rfl, rfl, ?_⟩
  · simp [crear_campo, h]
  · intro hnone
    simp only [hnone]
    cases E.isZero (E.simplify (curl_2d E (P_expr, Q_expr))) <;> rfl

/-- Witness for C4 at a concrete input: on `failEngine` (integration in `x`
always raises) with the conservative field `(2x, 2y)`, creation still
succeeds and the potential is absent. -/
theorem claim4_witness :
    crear_campo failEngine "F1" F1_sym.1 F1_sym.2 = Except.ok ("F1", recFail) ∧
    recFail.potencial = none := by
  obtain ⟨rec, hok, -, -, -, -, hpot⟩ :=
    claim4_recuperacion_degrada failEngine "F1" F1_sym.1 F1_sym.2 (by with_unfolding_all rfl)
  have hok2 : crear_campo failEngine "F1" F1_sym.1 F1_sym.2 = Except.ok ("F1", recFail) := by
    with_unfolding_all rfl
  rw [hok] at hok2
  injection hok2 with hp
  injection hp with h1 h2
  subst h2
  exact ⟨hok, hpot (by with_unfolding_all rfl)⟩

/-- The registration attempt fails exactly when the origin validation fails. -/
lemma crear_campo_error_iff (E : SymEngine) (nombre : String) (P_expr Q_expr : E.Expr) :
    (∃ msg, crear_campo E nombre P_expr Q_expr = Except.error msg) ↔
      originCheck E P_expr Q_expr = false := by
  cases hc : originCheck E P_expr Q_expr with
  | false => simp [crear_campo, hc]
  | true => simp [crear_campo, hc]

/-- The origin validation passes exactly when both compiled components
evaluate at `(0, 0)` without raising and both results convert with `float`. -/
lemma originCheck_true_iff (E : SymEngine) (P_expr Q_expr : E.Expr) :
    originCheck E P_expr Q_expr = true ↔
      ∃ pv qv, E.evalAt P_expr 0 0 = some pv ∧ E.evalAt Q_expr 0 0 = some qv ∧
        (float_of pv).isSome = true ∧ (float_of qv).isSome = true := by
  cases hp : E.evalAt P_expr 0 0 with
  | none => simp [originCheck, hp]
  | some pv =>
    cases hq : E.evalAt Q_expr 0 0 with
    | none => simp [originCheck, hp, hq]
    | some qv => simp [originCheck, hp, hq, Bool.and_eq_true]

/-- C5 (amended): `crear_campo` fails with an explicit error exactly when
evaluating the compiled `P` or `Q` at the origin raises or yields a value
not convertible to `float`.  No finiteness test is performed: `float` accepts
`nan` and `±inf`, so such fields are not rejected
(see `claim5_contraejemplo_no_finito`). -/
theorem claim5_validacion_origen (E : SymEngine) (nombre : String) (P_expr Q_expr : E.Expr) :
    (∃ msg, crear_campo E nombre P_expr Q_expr = Except.error msg) ↔
      ¬ (∃ pv qv, E.evalAt P_expr 0 0 = some pv ∧ E.evalAt Q_expr 0 0 = some qv ∧
          (float_of pv).isSome = true ∧ (float_of qv).isSome = true) := by
  rw [crear_campo_error_iff, ← originCheck_true_iff]
  cases originCheck E P_expr Q_expr <;> simp

/-- Counterexample to C5 as stated: the field `P = x + oo`, `Q = x`
evaluates to `inf` at the origin — the compiled `P` computes `0.0 + inf`,
a float addition that never raises — yet `crear_campo` accepts it and
returns a record, because `float(inf)` succeeds and no finiteness test is
performed: a field whose compiled `P` yields infinity at the origin is not
rejected. -/
theorem claim5_contraejemplo_no_finito :
    infEngine.evalAt pInf 0 0 = some Val.posInf ∧
    crear_campo infEngine "Campo personalizado: (x + oo, x)" pInf qInf =
      Except.ok ("Campo personalizado: (x + oo, x)", recInf) :=
  ⟨rfl, by with_unfolding_all rfl⟩

/-- C3 (the code as written): `calcular_trabajo` performs no validation of
the sample count.  For `n = 1` (and `n = 0`) it silently returns `0` — the
value of `np.trapz` on fewer than two samples — for every field, path and
velocity, instead of failing with a clear error as the spec requires. -/
theorem claim3_n_pequeno_devuelve_cero (Fnp : ℚ × ℚ → ℚ × ℚ) (r dr_dt : ℚ → ℚ × ℚ)
    (t0 t1 : ℚ) :
    calcular_trabajo Fnp r dr_dt t0 t1 1 = 0 ∧ calcular_trabajo Fnp r dr_dt t0 t1 0 = 0 :=
  ⟨rfl, rfl⟩

/-- Trapezoidal quadrature of an identically-zero sample sequence is zero,
over any grid. -/
lemma trapz_eq_zero_of_all_zero :
    ∀ (ys : List ℚ) (xs : List ℚ), (∀ y ∈ ys, y = 0) → trapz ys xs = 0 := by
  intro ys
  induction ys with
  | nil => intro xs _; rfl
  | cons y0 tail ih =>
    intro xs hz
    cases tail with
    | nil => rfl
    | cons y1 ys' =>
      cases xs with
      | nil => rfl
      | cons x0 xs' =>
        cases xs' with
        | nil => rfl
        | cons x1 xs'' =>
          have h0 : y0 = 0 := hz y0 (by simp)
          have h1 : y1 = 0 := hz y1 (by simp)
          have hrec := ih (x1 :: xs'') (fun y hy => hz y (List.mem_cons_of_mem _ hy))
          calc trapz (y0 :: y1 :: ys') (x0 :: x1 :: xs'')
              = (x1 - x0) * (y0 + y1) / 2 + trapz (y1 :: ys') (x1 :: xs'') := rfl
            _ = 0 := by rw [hrec, h0, h1]; ring

/-- C6 (amended): for the non-conservative field `F2 = (-y, x)`, the line
integral along the straight path from `(0,0)` to `(1,1)` computed by
`calcular_trabajo` equals `0` for every sample count `n ≥ 2` (the integrand
`-t + t` vanishes at every sample), not `1.0`. -/
theorem claim6_trabajo_recta_F2_cero (n : ℕ) (_hn : 2 ≤ n) :
    calcular_trabajo campo_rotacional (trayectoria_recta (0, 0) (1, 1))
      (velocidad_recta (0, 0) (1, 1)) 0 1 n = 0 := by
  unfold calcular_trabajo
  refine trapz_eq_zero_of_all_zero _ _ ?_
  intro y hy
  rw [List.mem_map] at hy
  obtain ⟨ti, -, rfl⟩ := hy
  simp only [dot2, campo_rotacional, trayectoria_recta, velocidad_recta]
  ring

/-- Counterexample to C6 as stated: at the sample count `n = 2` (the claim
asserts the value `1.0` for every `n ≥ 2`) the computed work is `0`, not
`1`. -/
theorem claim6_contraejemplo_trabajo_recta :
    calcular_trabajo campo_rotacional (trayectoria_recta (0, 0) (1, 1))
        (velocidad_recta (0, 0) (1, 1)) 0 1 2 = 0 ∧
    calcular_trabajo campo_rotacional (trayectoria_recta (0, 0) (1, 1))
        (velocidad_recta (0, 0) (1, 1)) 0 1 2 ≠ 1 := by
  constructor
  · with_unfolding_all rfl
  · with_unfolding_all decide

/-- Witness for C6 (amended) at the default resolution `n = 2000`. -/
theorem claim6_witness :
    calcular_trabajo campo_rotacional (trayectoria_recta (0, 0) (1, 1))
      (velocidad_recta (0, 0) (1, 1)) 0 1 2000 = 0 :=
  claim6_trabajo_recta_F2_cero 2000 (by norm_num)

/-- C7: for every pair of endpoints and every parameter value, the quadratic
family at `a = 0` coincides pointwise with the straight line and at `a = 1`
with the parabola, both for positions and for velocities. -/
theorem claim7_familia_reduce (A B : ℚ × ℚ) (t : ℚ) :
    trayectoria_parametrica A B 0 t = trayectoria_recta A B t ∧
    trayectoria_parametrica A B 1 t = trayectoria_parabolica A B t ∧
    velocidad_parametrica A B 0 t = velocidad_recta A B t ∧
    velocidad_parametrica A B 1 t = velocidad_parabolica A B t := by
  refine ⟨?_, ?_, ?_, ?_⟩ <;>
    simp only [trayectoria_parametrica, trayectoria_recta, trayectoria_parabolica,
      velocidad_parametrica, velocidad_recta, velocidad_parabolica, Prod.mk.injEq] <;>
    exact ⟨trivial, by ring⟩

/-- C10: each path generator joins its endpoints exactly: position `A` at
`t = 0` and position `B` at `t = 1`, for the line, the parabola, and every
member of the quadratic family. -/
theorem claim10_extremos_exactos (A B : ℚ × ℚ) (a : ℚ) :
    trayectoria_recta A B 0 = A ∧ trayectoria_recta A B 1 = B ∧
    trayectoria_parabolica A B 0 = A ∧ trayectoria_parabolica A B 1 = B ∧
    trayectoria_parametrica A B a 0 = A ∧ trayectoria_parametrica A B a 1 = B := by
  obtain ⟨A1, A2⟩ := A
  obtain ⟨B1, B2⟩ := B
  refine ⟨?_, ?_, ?_, ?_, ?_, ?_⟩ <;>
    simp only [trayectoria_recta, trayectoria_parabolica, trayectoria_parametrica,
      Prod.mk.injEq] <;>
    exact ⟨by ring, by ring⟩

/-- `crear_campo` always returns the name it was given. -/
lemma crear_campo_ok_name (E : SymEngine) (nombre nombre2 : String) (P_expr Q_expr : E.Expr)
    (rec : FieldRecord E.Expr)
    (h : crear_campo E nombre P_expr Q_expr = Except.ok (nombre2, rec)) :
    nombre2 = nombre := by
  cases hc : originCheck E P_expr Q_expr with
  | false => simp [crear_campo, hc] at h
  | true =>
    simp only [crear_campo, hc, if_true, Except.ok.injEq, Prod.mk.injEq] at h
    exact h.1.symm

/-- In the key-replacing pass of dict assignment, the key being written is
found with the new value whenever it was present. -/
lemma find?_set_of_any {R : Type} (reg : List (String × R)) (k : String) (v : R)
    (h : reg.any (fun p => p.1 == k) = true) :
    (reg.map (fun p => if p.1 == k then (k, v) else p)).find? (fun p => p.1 == k) =
      some (k, v) := by
  induction reg with
  | nil => simp at h
  | cons q rest ih =>
    by_cases hq : q.1 == k
    · simp only [List.map_cons, if_pos hq]
      rw [List.find?_cons_of_pos _ (by simp)]
    · simp only [List.map_cons, if_neg hq]
      rw [@List.find?_cons_of_neg _ _ q _ hq]
      apply ih
      simp only [List.any_cons, Bool.or_eq_true] at h
      rcases h with h | h
      · exact absurd h hq
      · exact h

/-- The key-replacing pass of dict assignment does not disturb lookups at any
other key. -/
lemma find?_set_ne {R : Type} (reg : List (String × R)) (k k' : String) (v : R)
    (hne : k' ≠ k) :
    (reg.map (fun p => if p.1 == k then (k, v) else p)).find? (fun p => p.1 == k') =
      reg.find? (fun p => p.1 == k') := by
  induction reg with
  | nil => rfl
  | cons q rest ih =>
    simp only [List.map_cons]
    by_cases hq : q.1 == k
    · rw [if_pos hq]
      rw [List.find?_cons_of_neg _ (by simp [Ne.symm hne])]
      rw [List.find?_cons_of_neg _ (by
        have hqk : q.1 = k := by simpa using hq
        simp [hqk, Ne.symm hne])]
      exact ih
    · rw [if_neg hq]
      by_cases hq' : q.1 == k'
      · rw [@List.find?_cons_of_pos _ _ q _ hq', @List.find?_cons_of_pos _ _ q _ hq']
      · rw [@List.find?_cons_of_neg _ _ q _ hq', @List.find?_cons_of_neg _ _ q _ hq']
        exact ih

/-- Looking up the assigned key after `d[k] = v` yields the new value. -/
lemma dictGet_dictSet_self {R : Type} (reg : List (String × R)) (k : String) (v : R) :
    dictGet (dictSet reg k v) k = some v := by
  unfold dictGet dictSet
  by_cases hany : reg.any (fun p => p.1 == k) = true
  · rw [if_pos hany, find?_set_of_any reg k v hany]
    rfl
  · rw [if_neg hany, List.find?_append]
    have hany' : reg.any (fun p => p.1 == k) = false := by
      cases h : reg.any (fun p => p.1 == k) with
      | false => rfl
      | true => exact absurd h hany
    have h1 : reg.find? (fun p => p.1 == k) = none :=
      List.find?_eq_none.2 (List.any_eq_false.1 hany')
    rw [h1, Option.none_or, List.find?_cons_of_pos _ (by simp)]
    rfl

/-- Looking up any other key after `d[k] = v` is unchanged. -/
lemma dictGet_dictSet_ne {R : Type} (reg : List (String × R)) (k k' : String) (v : R)
    (hne : k' ≠ k) :
    dictGet (dictSet reg k v) k' = dictGet reg k' := by
  unfold dictGet dictSet
  by_cases hany : reg.any (fun p => p.1 == k) = true
  · rw [if_pos hany, find?_set_ne reg k k' v hne]
  · rw [if_neg hany, List.find?_append]
    have h2 : List.find? (fun p => p.1 == k') [(k, v)] = none := by
      rw [List.find?_cons_of_neg _ (by simp [Ne.symm hne])]
      rfl
    rw [h2, Option.or_none]

/-- C8 (amended): registration has Python dict-assignment semantics.  Every
entry under a key other than the generated name is retrievable unchanged
after the operation; but when the generated name equals an existing entry's
key, the stored record becomes the newly created one — a silent overwrite
(see `claim8_contraejemplo_sobrescritura`). -/
theorem claim8_semantica_registro (E : SymEngine)
    (reg : List (String × FieldRecord E.Expr))
    (nombre_nuevo expr_P expr_Q : String) (P_expr Q_expr : E.Expr) :
    (∀ k, k ≠ genName nombre_nuevo expr_P expr_Q →
      dictGet (registrar E reg nombre_nuevo expr_P expr_Q P_expr Q_expr) k = dictGet reg k) ∧
    (∀ rec, crear_campo E (genName nombre_nuevo expr_P expr_Q) P_expr Q_expr =
        Except.ok (genName nombre_nuevo expr_P expr_Q, rec) →
      dictGet (registrar E reg nombre_nuevo expr_P expr_Q P_expr Q_expr)
        (genName nombre_nuevo expr_P expr_Q) = some rec) := by
  constructor
  · intro k hk
    unfold registrar
    cases hcc : crear_campo E (genName nombre_nuevo expr_P expr_Q) P_expr Q_expr with
    | error msg => rfl
    | ok pair =>
      obtain ⟨nm2, rec⟩ := pair
      have hnm : nm2 = genName nombre_nuevo expr_P expr_Q :=
        crear_campo_ok_name E _ nm2 P_expr Q_expr rec hcc
      subst hnm
      exact dictGet_dictSet_ne reg _ k rec hk
  · intro rec hcc
    unfold registrar
    rw [hcc]
    exact dictGet_dictSet_self reg _ rec

/-- Counterexample to C8 as stated: a registry state holding a record under
the name `Campo personalizado: (x, y)` together with the registration request
that generates that very name.  After the operation the key holds the newly
created record for `(x, y)` and the previously stored record is no longer
retrievable: the entry was silently overwritten. -/
theorem claim8_contraejemplo_sobrescritura :
    dictGet regOld (genName "Campo personalizado" "x" "y") = some fieldF1 ∧
    dictGet (registrar polyEngine regOld "Campo personalizado" "x" "y" pX pY)
        (genName "Campo personalizado" "x" "y") = some recXY ∧
    dictGet (registrar polyEngine regOld "Campo personalizado" "x" "y" pX pY)
        (genName "Campo personalizado" "x" "y") ≠ some fieldF1 := by
  refine ⟨rfl, by with_unfolding_all rfl, ?_⟩
  intro h
  have h1 : dictGet (registrar polyEngine regOld "Campo personalizado" "x" "y" pX pY)
      (genName "Campo personalizado" "x" "y") = some recXY := by with_unfolding_all rfl
  rw [h1] at h
  injection h with h2
  have h3 : recXY.sym = fieldF1.sym := congrArg FieldRecord.sym h2
  exact absurd h3 (by with_unfolding_all decide)

/-- Witness for C8 (amended) at concrete inputs: registering `(x, y)` under
the fresh name `B: (x, y)` leaves the unrelated key `Ninguno` unchanged and
makes the generated name retrieve the new record. -/
theorem claim8_witness :
    dictGet (registrar polyEngine regOld "B" "x" "y" pX pY) "Ninguno" =
      dictGet regOld "Ninguno" ∧
    dictGet (registrar polyEngine regOld "B" "x" "y" pX pY) (genName "B" "x" "y") =
      some recXY :=
  ⟨(claim8_semantica_registro polyEngine regOld "B" "x" "y" pX pY).1 "Ninguno" (by decide),
   (claim8_semantica_registro polyEngine regOld "B" "x" "y" pX pY).2 recXY
      (by with_unfolding_all rfl)⟩

/-- Unfolding equation of `argmin` on a list with at least two elements. -/
lemma argmin_cons_cons (w v : ℚ) (ws : List ℚ) :
    argmin (w :: v :: ws) =
      if (v :: ws).getD (argmin (v :: ws)) 0 < w then argmin (v :: ws) + 1 else 0 := rfl

/-- `argmin` returns an index inside the array. -/
lemma argmin_lt_length : ∀ (l : List ℚ), l ≠ [] → argmin l < l.length := by
  intro l
  induction l with
  | nil => intro h; exact absurd rfl h
  | cons w tail ih =>
    intro _
    cases tail with
    | nil => simp [argmin]
    | cons v ws =>
      have h2 : argmin (v :: ws) < (v :: ws).length := ih (by simp)
      rw [argmin_cons_cons]
      by_cases hlt : (v :: ws).getD (argmin (v :: ws)) 0 < w
      · rw [if_pos hlt]
        simpa using Nat.succ_lt_succ h2
      · rw [if_neg hlt]
        simp

/-- The value at the `argmin` index is a minimum of the array. -/
lemma argmin_getD_le : ∀ (l : List ℚ) (j : ℕ), j < l.length →
    l.getD (argmin l) 0 ≤ l.getD j 0 := by
  intro l
  induction l with
  | nil => intro j hj; simp at hj
  | cons w tail ih =>
    intro j hj
    cases tail with
    | nil =>
      have hj0 : j = 0 := by simpa using Nat.lt_one_iff.1 (by simpa using hj)
      subst hj0
      simp [argmin]
    | cons v ws =>
      rw [argmin_cons_cons]
      by_cases hlt : (v :: ws).getD (argmin (v :: ws)) 0 < w
      · rw [if_pos hlt, List.getD_cons_succ]
        cases j with
        | zero => rw [List.getD_cons_zero]; exact le_of_lt hlt
        | succ j' =>
          rw [List.getD_cons_succ]
          exact ih j' (by simpa using hj)
      · rw [if_neg hlt, List.getD_cons_zero]
        rw [not_lt] at hlt
        cases j with
        | zero => rw [List.getD_cons_zero]
        | succ j' =>
          rw [List.getD_cons_succ]
          exact le_trans hlt (ih j' (by simpa using hj))

/-- Every index strictly before the `argmin` index holds a strictly larger
value: ties resolve to the first occurrence in array order. -/
lemma argmin_first_lt : ∀ (l : List ℚ) (j : ℕ), j < argmin l →
    l.getD (argmin l) 0 < l.getD j 0 := by
  intro l
  induction l with
  | nil => intro j hj; simp [argmin] at hj
  | cons w tail ih =>
    intro j hj
    cases tail with
    | nil => simp [argmin] at hj
    | cons v ws =>
      rw [argmin_cons_cons] at hj ⊢
      by_cases hlt : (v :: ws).getD (argmin (v :: ws)) 0 < w
      · rw [if_pos hlt] at hj ⊢
        rw [List.getD_cons_succ]
        cases j with
        | zero => rw [List.getD_cons_zero]; exact hlt
        | succ j' =>
          rw [List.getD_cons_succ]
          exact ih j' (by omega)
      · rw [if_neg hlt] at hj
        exact absurd hj (Nat.not_lt_zero j)

/-- C9: for every field, endpoints, resolution and finite ordered sequence of
sweep values, the minimum-search block returns the pair taken at the index
`argmin` of the computed work values; that index carries a minimum value of
the sequence, and every strictly earlier index carries a strictly larger
value — ties resolve to the first occurrence in sweep order. -/
theorem claim9_minimo_primera_ocurrencia (Fnp : ℚ × ℚ → ℚ × ℚ) (A B : ℚ × ℚ) (n : ℕ)
    (a_vals : List ℚ) (h : a_vals ≠ []) :
    argmin (sweepW Fnp A B n a_vals) < (sweepW Fnp A B n a_vals).length ∧
    buscar_minimo a_vals (sweepW Fnp A B n a_vals) =
      (a_vals.getD (argmin (sweepW Fnp A B n a_vals)) 0,
        (sweepW Fnp A B n a_vals).getD (argmin (sweepW Fnp A B n a_vals)) 0) ∧
    (∀ j < (sweepW Fnp A B n a_vals).length,
      (sweepW Fnp A B n a_vals).getD (argmin (sweepW Fnp A B n a_vals)) 0 ≤
        (sweepW Fnp A B n a_vals).getD j 0) ∧
    (∀ j < argmin (sweepW Fnp A B n a_vals),
      (sweepW Fnp A B n a_vals).getD (argmin (sweepW Fnp A B n a_vals)) 0 <
        (sweepW Fnp A B n a_vals).getD j 0) := by
  have hW : sweepW Fnp A B n a_vals ≠ [] := fun hc => h (by simpa [sweepW] using hc)
  exact ⟨argmin_lt_length _ hW, rfl, fun j hj => argmin_getD_le _ j hj,
    fun j hj => argmin_first_lt _ j hj⟩

/-- Witness for C9 at a concrete input: sweeping `F2` over `a ∈ [0, 1]` with
the minimum at the first entry yields the pair `(0, 0)`. -/
theorem claim9_witness :
    buscar_minimo [0, 1] (sweepW campo_rotacional (0, 0) (1, 1) 2 [0, 1]) = (0, 0) := by
  have h := claim9_minimo_primera_ocurrencia campo_rotacional (0, 0) (1, 1) 2 [0, 1]
    (List.cons_ne_nil 0 [1])
  exact h.2.1.trans (by with_unfolding_all rfl)

end OptTray
